import Mathlib

/-!
Verification of the SpatialCL spatial query engines.

This file gives a shallow embedding of the two OpenCL query kernels of the
repository, the breadth-first engine of
`src/SpatialCL/query/query_engine_bfs.hpp` and the depth-first engine of
the DFS engine header (`query_engine_dfs.hpp`), together with the binary
tree addressing helpers they call, and proves the behavioural claims about
them.

Machine integers (`uint`, `ulong`) are modelled as `Nat`; all index and
counter arithmetic performed by the kernels stays far below 2^32 / 2^64 in
the executions considered, so no wrap-around is modelled except where a
comment notes the correspondence explicitly.  Handler callbacks are
modelled as Boolean-valued decision functions of the data they receive:
both kernels hand a selector the node key (or particle index) plus values
that are a pure function of that key and the read-only tree buffers, so an
arbitrary deterministic handler is exactly a function of the key.
-/

/-! ## Binary tree addressing layer

The header `SpatialCL/tree/binary_tree.hpp` is not part of the provided
sources, so the addressing functions used by both kernels are modelled
from the specification (section 4.1 "Binary Tree Addressing").
-/

/-- Modelled from the spec: a node identity of `binary_tree.hpp`,
`binary_tree_key_t`, holding a level (root is level 0) and a left-to-right
local node id within that level. -/
structure binary_tree_key_t where
  level : Nat
  local_node_id : Nat
deriving DecidableEq

/-- Modelled from the spec: `parent(node)`: level-1, local_id/2 (integer
division).  (`binary_tree_get_parent` of the missing `binary_tree.hpp`.) -/
def binary_tree_get_parent (k : binary_tree_key_t) : binary_tree_key_t :=
  ⟨k.level - 1, k.local_node_id / 2⟩

/-- Modelled from the spec: `children_begin(node)`: local_id*2 at level+1. -/
def binary_tree_get_children_begin (k : binary_tree_key_t) : binary_tree_key_t :=
  ⟨k.level + 1, k.local_node_id * 2⟩

/-- Modelled from the spec: `children_last(node)`: local_id*2+1 at level+1. -/
def binary_tree_get_children_last (k : binary_tree_key_t) : binary_tree_key_t :=
  ⟨k.level + 1, k.local_node_id * 2 + 1⟩

/-- Modelled from the spec: `is_right_child(node)`: local_id is odd. -/
def binary_tree_is_right_child (k : binary_tree_key_t) : Bool :=
  k.local_node_id % 2 == 1

/-- Modelled from the spec: `leaves_per_node(level, levels)`:
`2^(levels-1-level)` — the count of particle slots (real or virtual) a node
covers.  (`BT_LEAVES_PER_NODE` of the missing `binary_tree.hpp`.) -/
def BT_LEAVES_PER_NODE (level num_levels : Nat) : Nat :=
  2 ^ (num_levels - 1 - level)

/-- Modelled from the spec: the local node id of the left child is twice
the parent's local node id (`BT_LOCAL_NODE_ID_OF_LEFT_CHILD`; also restated
by the comment above `get_lnid_from_available_children_index` in
`query_engine_bfs.hpp`). -/
def BT_LOCAL_NODE_ID_OF_LEFT_CHILD (lnid : Nat) : Nat :=
  lnid * 2

/-- Modelled from the spec: `is_node_used(node, levels, N)`: true iff the
node's leftmost descendant particle index, `local_id * 2^(levels-1-level)`,
is `< N`. -/
def binary_tree_is_node_used (k : binary_tree_key_t) (num_levels N : Nat) : Bool :=
  decide (k.local_node_id * 2 ^ (num_levels - 1 - k.level) < N)

/-- The descendant relation generated by the two child maps: `Descendant k m`
holds when `m` is a proper descendant of `k` in the implicit binary tree. -/
inductive Descendant : binary_tree_key_t → binary_tree_key_t → Prop where
  | left (k : binary_tree_key_t) : Descendant k (binary_tree_get_children_begin k)
  | right (k : binary_tree_key_t) : Descendant k (binary_tree_get_children_last k)
  | trans_left {k m : binary_tree_key_t} :
      Descendant k m → Descendant k (binary_tree_get_children_begin m)
  | trans_right {k m : binary_tree_key_t} :
      Descendant k m → Descendant k (binary_tree_get_children_last m)

/-! ## The depth-first query kernel

Shallow embedding of the `query` kernel of the DFS engine
(`QUERY_NODE_LEVEL`, `QUERY_PARTICLE_LEVEL` and the `while` loop of the
kernel body).  The handler's `dfs_node_selector` receives the node key, its
global index and the two aggregate values loaded for it — all pure
functions of the key for fixed read-only buffers — so it is modelled as a
function of the key; likewise `dfs_particle_processor` is a function of the
particle index.  The trace records every selector invocation. -/

inductive DfsEvent where
  | nodeQuery (k : binary_tree_key_t) (selected : Bool)
  | particleQuery (idx : Nat) (selected : Bool)
deriving DecidableEq

structure DfsState where
  current : binary_tree_key_t
  num_covered_particles : Nat
  trace : List DfsEvent
deriving DecidableEq

/-- The two values of `depth_first_iteration_strategy` in the DFS header. -/
inductive depth_first_iteration_strategy where
  | HIERARCHICAL_ITERATION_STRICT
  | HIERARCHICAL_ITERATION_RELAXED
deriving DecidableEq

/-- The parent-climbing loop of `find_first_left_parent`: climb as long as
the node is a right child.  The fuel argument bounds the climb by the
starting node's depth; each step moves to the parent one level up, and in
every state the kernel reaches the level-0 ancestor is the root, which is a
left child, so the fuel is never exhausted there. -/
def climbToLeftChild : Nat → binary_tree_key_t → binary_tree_key_t
  | 0, k => k
  | fuel + 1, k =>
    if binary_tree_is_right_child k then
      climbToLeftChild fuel (binary_tree_get_parent k)
    else k

/-- `find_first_left_parent` of the DFS engine: take the parent, then keep
climbing while the result is a right child. -/
def find_first_left_parent (k : binary_tree_key_t) : binary_tree_key_t :=
  climbToLeftChild k.level (binary_tree_get_parent k)

/-- `NEXT_PARENT`: `find_first_left_parent` under the strict strategy, the
plain parent under the relaxed strategy. -/
def NEXT_PARENT (strat : depth_first_iteration_strategy) (k : binary_tree_key_t) :
    binary_tree_key_t :=
  match strat with
  | .HIERARCHICAL_ITERATION_STRICT => find_first_left_parent k
  | .HIERARCHICAL_ITERATION_RELAXED => binary_tree_get_parent k

/-- The shared backtrack-and-advance tail of both `QUERY_NODE_LEVEL` and
`QUERY_PARTICLE_LEVEL` after a rejection: at a right child, go to
`NEXT_PARENT` and advance its local id; otherwise advance to the sibling. -/
def dfsBacktrack (strat : depth_first_iteration_strategy) (k : binary_tree_key_t) :
    binary_tree_key_t :=
  if binary_tree_is_right_child k then
    let p := NEXT_PARENT strat k
    ⟨p.level, p.local_node_id + 1⟩
  else
    ⟨k.level, k.local_node_id + 1⟩

/-- One iteration of the DFS kernel's `while` loop body (the caller checks
the guard `num_covered_particles < num_particles`).  `L` is
`effective_num_levels`, `N` is `num_particles`. -/
def dfsStep (L : Nat) (strat : depth_first_iteration_strategy)
    (nsel : binary_tree_key_t → Bool) (psel : Nat → Bool) (s : DfsState) : DfsState :=
  let k := s.current
  if k.level = L - 1 then
    -- QUERY_PARTICLE_LEVEL: the particle index equals the local node id
    let particle_idx := k.local_node_id
    let selected := psel particle_idx
    let k1 :=
      if selected then ⟨k.level, k.local_node_id + 1⟩
      else dfsBacktrack strat k
    { current := k1,
      num_covered_particles := s.num_covered_particles + 1,
      trace := s.trace ++ [DfsEvent.particleQuery particle_idx selected] }
  else
    -- QUERY_NODE_LEVEL
    let selected := nsel k
    if selected then
      { current := binary_tree_get_children_begin k,
        num_covered_particles := s.num_covered_particles,
        trace := s.trace ++ [DfsEvent.nodeQuery k true] }
    else
      { current := dfsBacktrack strat k,
        num_covered_particles := s.num_covered_particles + BT_LEAVES_PER_NODE k.level L,
        trace := s.trace ++ [DfsEvent.nodeQuery k false] }

/-- The DFS kernel's per-query `while (num_covered_particles < num_particles)`
loop, run for at most `fuel` iterations. -/
def dfsExec (L N : Nat) (strat : depth_first_iteration_strategy)
    (nsel : binary_tree_key_t → Bool) (psel : Nat → Bool) :
    Nat → DfsState → DfsState
  | 0, s => s
  | fuel + 1, s =>
    if s.num_covered_particles < N then
      dfsExec L N strat nsel psel fuel (dfsStep L strat nsel psel s)
    else s

/-- The per-query initial state of the DFS kernel: cursor at the root,
nothing covered. -/
def dfsInit : DfsState := ⟨⟨0, 0⟩, 0, []⟩

/-- All particle-selector invocations of a trace, in order, with their
outcomes. -/
def particleQueries (tr : List DfsEvent) : List (Nat × Bool) :=
  tr.filterMap fun e =>
    match e with
    | DfsEvent.particleQuery i b => some (i, b)
    | _ => none

/-- The particles a DFS trace selected, in order. -/
def selectedParticles (tr : List DfsEvent) : List Nat :=
  (particleQueries tr).filterMap fun p => if p.2 then some p.1 else none

/-- The nodes a DFS trace selected (node-selector accepted), in order. -/
def selectedNodes (tr : List DfsEvent) : List binary_tree_key_t :=
  tr.filterMap fun e =>
    match e with
    | DfsEvent.nodeQuery k true => some k
    | _ => none

/-- Leftmost particle slot covered by a node (verification helper:
`local_node_id * 2^(L-1-level)`, the quantity `is_node_used` compares
against `N`). -/
def dfsLeftmost (L : Nat) (k : binary_tree_key_t) : Nat :=
  k.local_node_id * 2 ^ (L - 1 - k.level)

/-- Loop invariant of the DFS kernel: the cursor stays inside the padded
tree and the coverage counter always equals the leftmost particle slot of
the cursor's subtree. -/
def DfsInv (L : Nat) (s : DfsState) : Prop :=
  s.current.level ≤ L - 1 ∧ s.current.local_node_id ≤ 2 ^ s.current.level ∧
    s.num_covered_particles = dfsLeftmost L s.current

/-- Termination measure for the DFS loop. -/
def dfsMeasure (L N : Nat) (s : DfsState) : Nat :=
  (N - s.num_covered_particles) * L + (L - 1 - s.current.level)

/-! ## The breadth-first query kernel

Shallow embedding of the `query` kernel of
`src/SpatialCL/query/query_engine_bfs.hpp`.  `C` is the compile-time
capacity `Max_selected_nodes`; `Max_children = 2*C`.  A handler's
`bfs_node_selector` examines the candidates `0 .. available_children-1`
(loading each through `bfs_load_node`) and sets their `selection_map`
entries; a deterministic handler's verdict on a candidate is a function of
the level and the candidate's local node id, so the post-handler selection
map is modelled as `i < available_children && sel level (lnid i)` (the
kernel zero-initialises the map, and candidates at or beyond
`available_children` are not part of the handler's contract).  The trace
records the candidate list offered to every batched selector invocation;
`tempWrites` records the index of every store into the fixed-size array
`temp_new_node_ids` (capacity `C`) performed by the compaction loop. -/

inductive BfsEvent where
  | init : BfsEvent
  | nodeSel (level : Nat) (ws : List Nat) (offered : List Nat) : BfsEvent
  | partSel (ws : List Nat) (offered : List Nat) : BfsEvent
  | exit : BfsEvent
deriving DecidableEq

structure BfsAcc where
  avail : List Nat
  events : List BfsEvent
  tempWrites : List Nat
  levelIters : Nat
deriving DecidableEq

/-- `get_lnid_from_available_children_index`: map a candidate index to a
local node id through the parent buffer
(`BT_LOCAL_NODE_ID_OF_LEFT_CHILD(parent_lnid_buffer[id >> 1]) + (id & 1)`). -/
def get_lnid_from_available_children_index (ws : List Nat) (i : Nat) : Nat :=
  BT_LOCAL_NODE_ID_OF_LEFT_CHILD (ws.getD (i / 2) 0) + i % 2

/-- The `available_children` computation of the BFS kernel at a node level:
`2 * num_available_nodes`, minus one when the last parent's last child
fails `binary_tree_is_node_used` against `num_particles`. -/
def bfs_available_children (L N level : Nat) (ws : List Nat) : Nat :=
  let last_child :=
    binary_tree_get_children_last ⟨level - 1, ws.getD (ws.length - 1) 0⟩
  if binary_tree_is_node_used last_child L N then 2 * ws.length else 2 * ws.length - 1

/-- One iteration of the BFS compaction loop over `selection_map`: on a
selected candidate, store its local node id at `temp_new_node_ids[cnt]`
(recording the written index; `List.set` past the end changes nothing, like
the out-of-bounds store it mirrors leaves the first `C` cells unchanged)
and then clamp `cnt` to `min (cnt+1) C`. -/
def bfs_compact_step (C : Nat) (st : Nat × List Nat × List Nat) (cand : Nat × Bool) :
    Nat × List Nat × List Nat :=
  if cand.2 then
    (min (st.1 + 1) C, st.2.1.set st.1 cand.1, st.2.2 ++ [st.1])
  else st

/-- The body of one BFS node-level iteration: compute `available_children`,
invoke the batched node selector, then compact the selected candidates into
the new working set. -/
def bfsBody (C N L : Nat) (sel : Nat → Nat → Bool) (level : Nat) (acc : BfsAcc) :
    BfsAcc :=
  let ws := acc.avail
  let m := bfs_available_children L N level ws
  let cands := (List.range (2 * C)).map fun i =>
    (get_lnid_from_available_children_index ws i,
     decide (i < m) && sel level (get_lnid_from_available_children_index ws i))
  let r := cands.foldl (bfs_compact_step C) (0, List.replicate C 0, [])
  { avail := r.2.1.take r.1,
    events := acc.events ++
      [BfsEvent.nodeSel level ws
        ((List.range m).map (get_lnid_from_available_children_index ws))],
    tempWrites := acc.tempWrites ++ r.2.2,
    levelIters := acc.levelIters + 1 }

/-- The BFS kernel's `for (uint level = 1; level < 64; ++level)` loop with
its two break conditions.  The fuel counts the remaining admissible level
values, so the top-level call uses fuel 63 at level 1 (the loop bound
`level < 64`). -/
def bfsLoop (C N L : Nat) (sel : Nat → Nat → Bool) : Nat → Nat → BfsAcc → BfsAcc
  | 0, _, acc => acc
  | fuel + 1, level, acc =>
    if acc.avail.length = 0 ∨ level = L - 1 then acc
    else bfsLoop C N L sel fuel (level + 1) (bfsBody C N L sel level acc)

/-- One whole BFS query: init hook, working set `{root}`, the node-level
loop, the guarded final particle pass (`2 * num_available_nodes` candidates,
dropping the last when its particle index is `≥ num_particles`), exit hook. -/
def bfsQuery (C N L : Nat) (sel : Nat → Nat → Bool) : BfsAcc :=
  let acc0 : BfsAcc := ⟨[0], [BfsEvent.init], [], 0⟩
  let acc := bfsLoop C N L sel 63 1 acc0
  let acc1 :=
    if 0 < acc.avail.length then
      let cnt := acc.avail.length
      let m :=
        if N ≤ get_lnid_from_available_children_index acc.avail (2 * cnt - 1)
        then 2 * cnt - 1 else 2 * cnt
      { acc with
        events := acc.events ++
          [BfsEvent.partSel acc.avail
            ((List.range m).map (get_lnid_from_available_children_index acc.avail))] }
    else acc
  { acc1 with events := acc1.events ++ [BfsEvent.exit] }

/-- Working-set invariant of the BFS loop: the stored local node ids are
strictly increasing and all name nodes that exist (`is_node_used`) at the
level `p` the working set currently describes. -/
def WsGood (L N p : Nat) (ws : List Nat) : Prop :=
  ws.Pairwise (· < ·) ∧
    ∀ a ∈ ws, binary_tree_is_node_used ⟨p, a⟩ L N = true

/-- Every candidate a BFS trace event offered to the handler exists:
node candidates pass `is_node_used`, particle candidates are below `N`. -/
def BfsEventOk (L N : Nat) : BfsEvent → Prop
  | BfsEvent.nodeSel level _ offered =>
      ∀ x ∈ offered, binary_tree_is_node_used ⟨level, x⟩ L N = true
  | BfsEvent.partSel _ offered => ∀ x ∈ offered, x < N
  | _ => True

/-- Shape of the candidate count of a BFS trace event: the count the
handler received, related to the working set by the `2*count`-with-
rightmost-existence-correction formula of the kernel. -/
def BfsEventCount (L N : Nat) : BfsEvent → Prop
  | BfsEvent.nodeSel level ws offered =>
      1 ≤ level ∧ ws ≠ [] ∧
        offered.length =
          (if (ws.getD (ws.length - 1) 0 * 2 + 1) * 2 ^ (L - 1 - level) < N
           then 2 * ws.length else 2 * ws.length - 1)
  | BfsEvent.partSel ws offered =>
      ws ≠ [] ∧
        offered.length =
          (if ws.getD (ws.length - 1) 0 * 2 + 1 < N
           then 2 * ws.length else 2 * ws.length - 1)
  | _ => True

/-! ## Theorems -/

/-! ### Addressing layer: claims C8 and C9 -/

theorem leftmost_le_child_left (L : Nat) (k : binary_tree_key_t) :
    dfsLeftmost L k ≤ dfsLeftmost L (binary_tree_get_children_begin k) := by
  unfold dfsLeftmost binary_tree_get_children_begin
  simp only
  rcases le_or_lt (k.level + 1) (L - 1) with h | h
  · have he : L - 1 - k.level = (L - 1 - (k.level + 1)) + 1 := by omega
    rw [he, pow_succ]
    ring_nf
    omega
  · have h1 : L - 1 - k.level ≤ 1 := by omega
    have h2 : 2 ^ (L - 1 - k.level) ≤ 2 ^ 1 := Nat.pow_le_pow_right (by omega) h1
    have h3 : 2 ^ 1 * k.local_node_id ≤ 2 * k.local_node_id := by omega
    calc k.local_node_id * 2 ^ (L - 1 - k.level)
        ≤ k.local_node_id * 2 ^ 1 := Nat.mul_le_mul_left _ h2
      _ ≤ k.local_node_id * 2 * 2 ^ (L - 1 - (k.level + 1)) := by
          have : 1 ≤ 2 ^ (L - 1 - (k.level + 1)) := Nat.one_le_two_pow
          nlinarith

theorem leftmost_le_child_right (L : Nat) (k : binary_tree_key_t) :
    dfsLeftmost L k ≤ dfsLeftmost L (binary_tree_get_children_last k) := by
  refine le_trans (leftmost_le_child_left L k) ?_
  unfold dfsLeftmost binary_tree_get_children_begin binary_tree_get_children_last
  simp only
  exact Nat.mul_le_mul_right _ (by omega)

theorem leftmost_le_of_descendant (L : Nat) {k m : binary_tree_key_t}
    (h : Descendant k m) : dfsLeftmost L k ≤ dfsLeftmost L m := by
  induction h with
  | left => exact leftmost_le_child_left L _
  | right => exact leftmost_le_child_right L _
  | trans_left _ ih => exact le_trans ih (leftmost_le_child_left L _)
  | trans_right _ ih => exact le_trans ih (leftmost_le_child_right L _)

/-- Claim C8: for every non-root node, taking either child and then the
parent returns to the node: `parent(children_begin(node)) = node` and
`parent(children_last(node)) = node`. -/
theorem c8_parent_child_round_trip (k : binary_tree_key_t) (h : 1 ≤ k.level) :
    binary_tree_get_parent (binary_tree_get_children_begin k) = k ∧
      binary_tree_get_parent (binary_tree_get_children_last k) = k := by
  obtain ⟨l, i⟩ := k
  unfold binary_tree_get_parent binary_tree_get_children_begin binary_tree_get_children_last
  constructor <;> · simp only [binary_tree_key_t.mk.injEq]; omega

/-- Witness for C8 at the concrete node (level 1, local id 1). -/
theorem c8_witness :
    binary_tree_get_parent (binary_tree_get_children_begin ⟨1, 1⟩) = ⟨1, 1⟩ ∧
      binary_tree_get_parent (binary_tree_get_children_last ⟨1, 1⟩) = ⟨1, 1⟩ :=
  c8_parent_child_round_trip ⟨1, 1⟩ (by decide)

/-- Claim C9: `is_node_used` is monotone — if a node is unused, every node
to its right at the same level is unused, and every descendant of the node
is unused. -/
theorem c9_is_node_used_monotone (L N : Nat) (k : binary_tree_key_t)
    (h : binary_tree_is_node_used k L N = false) :
    (∀ j, k.local_node_id < j →
      binary_tree_is_node_used ⟨k.level, j⟩ L N = false) ∧
    (∀ m, Descendant k m → binary_tree_is_node_used m L N = false) := by
  have hk : ¬ dfsLeftmost L k < N := by
    simpa [binary_tree_is_node_used, dfsLeftmost] using h
  constructor
  · intro j hj
    have : ¬ dfsLeftmost L ⟨k.level, j⟩ < N := by
      have hmono : dfsLeftmost L k ≤ dfsLeftmost L ⟨k.level, j⟩ := by
        unfold dfsLeftmost
        exact Nat.mul_le_mul_right _ (le_of_lt hj)
      omega
    simpa [binary_tree_is_node_used, dfsLeftmost] using this
  · intro m hm
    have hmono := leftmost_le_of_descendant L hm
    have : ¬ dfsLeftmost L m < N := by omega
    simpa [binary_tree_is_node_used, dfsLeftmost] using this

/-- Witness for C9: with 4 levels and 6 particles, node (2,3) is unused,
so its right neighbour (2,5) and its left child (3,6) are unused. -/
theorem c9_witness :
    binary_tree_is_node_used ⟨2, 5⟩ 4 6 = false ∧
      binary_tree_is_node_used ⟨3, 6⟩ 4 6 = false :=
  ⟨(c9_is_node_used_monotone 4 6 ⟨2, 3⟩ (by decide)).1 5 (by decide),
   (c9_is_node_used_monotone 4 6 ⟨2, 3⟩ (by decide)).2 ⟨3, 6⟩
     (Descendant.left ⟨2, 3⟩)⟩

/-! ### DFS kernel: invariant, termination, claims C2 and C3 -/

theorem parent_step_eq (E : Nat) (k : binary_tree_key_t)
    (hodd : k.local_node_id % 2 = 1) (h1 : 1 ≤ k.level) (h2 : k.level ≤ E) :
    (k.local_node_id / 2 + 1) * 2 ^ (E - (k.level - 1)) =
      (k.local_node_id + 1) * 2 ^ (E - k.level) := by
  obtain ⟨m, hm⟩ : ∃ m, k.local_node_id = 2 * m + 1 := ⟨k.local_node_id / 2, by omega⟩
  have hd : k.local_node_id / 2 = m := by omega
  have he : E - (k.level - 1) = (E - k.level) + 1 := by omega
  rw [hd, hm, he, pow_succ]
  ring

theorem right_child_level_pos (k : binary_tree_key_t)
    (hval : k.local_node_id < 2 ^ k.level)
    (hodd : binary_tree_is_right_child k = true) : 1 ≤ k.level := by
  by_contra h
  have h0 : k.level = 0 := by omega
  have : k.local_node_id = 0 := by
    have := hval
    rw [h0] at this
    omega
  rw [binary_tree_is_right_child, this] at hodd
  simp at hodd

theorem climb_spec (E : Nat) :
    ∀ (fuel : Nat) (k : binary_tree_key_t),
      k.local_node_id < 2 ^ k.level → k.level ≤ E →
      (climbToLeftChild fuel k).local_node_id <
          2 ^ (climbToLeftChild fuel k).level ∧
        (climbToLeftChild fuel k).level ≤ k.level ∧
        ((climbToLeftChild fuel k).local_node_id + 1) *
            2 ^ (E - (climbToLeftChild fuel k).level) =
          (k.local_node_id + 1) * 2 ^ (E - k.level) := by
  intro fuel
  induction fuel with
  | zero => intro k hval hlev; exact ⟨hval, le_refl _, rfl⟩
  | succ fuel ih =>
    intro k hval hlev
    by_cases hrc : binary_tree_is_right_child k = true
    · have hpos : 1 ≤ k.level := right_child_level_pos k hval hrc
      have hodd : k.local_node_id % 2 = 1 := by
        have := hrc
        rw [binary_tree_is_right_child] at this
        simpa using this
      have hpow : 2 ^ k.level = 2 * 2 ^ (k.level - 1) := by
        have hp := pow_succ 2 (k.level - 1)
        have hq : k.level - 1 + 1 = k.level := by omega
        rw [hq] at hp
        omega
      have hpar_val : (binary_tree_get_parent k).local_node_id <
          2 ^ (binary_tree_get_parent k).level := by
        rw [binary_tree_get_parent]
        simp only
        omega
      have hpar_lev : (binary_tree_get_parent k).level ≤ E := by
        rw [binary_tree_get_parent]
        simp only
        omega
      have hstep : climbToLeftChild (fuel + 1) k =
          climbToLeftChild fuel (binary_tree_get_parent k) := by
        rw [climbToLeftChild, if_pos hrc]
      obtain ⟨ha, hb, hc⟩ := ih (binary_tree_get_parent k) hpar_val hpar_lev
      rw [hstep]
      refine ⟨ha, ?_, ?_⟩
      · refine le_trans hb ?_
        rw [binary_tree_get_parent]
        simp only
        omega
      · rw [hc, binary_tree_get_parent]
        simp only
        exact parent_step_eq E k hodd hpos hlev
    · have hstop : climbToLeftChild (fuel + 1) k = k := by
        rw [climbToLeftChild, if_neg hrc]
      rw [hstop]
      exact ⟨hval, le_refl _, rfl⟩

theorem dfs_backtrack_spec (L : Nat) (strat : depth_first_iteration_strategy)
    (k : binary_tree_key_t) (hlev : k.level ≤ L - 1)
    (hval : k.local_node_id < 2 ^ k.level) :
    (dfsBacktrack strat k).level ≤ L - 1 ∧
      (dfsBacktrack strat k).local_node_id ≤ 2 ^ (dfsBacktrack strat k).level ∧
      (dfsBacktrack strat k).local_node_id *
          2 ^ (L - 1 - (dfsBacktrack strat k).level) =
        (k.local_node_id + 1) * 2 ^ (L - 1 - k.level) := by
  by_cases hrc : binary_tree_is_right_child k = true
  · have hpos : 1 ≤ k.level := right_child_level_pos k hval hrc
    have hodd : k.local_node_id % 2 = 1 := by
      have := hrc
      rw [binary_tree_is_right_child] at this
      simpa using this
    have hpow : 2 ^ k.level = 2 * 2 ^ (k.level - 1) := by
      have hp := pow_succ 2 (k.level - 1)
      have hq : k.level - 1 + 1 = k.level := by omega
      rw [hq] at hp
      omega
    have hpar_val : (binary_tree_get_parent k).local_node_id <
        2 ^ (binary_tree_get_parent k).level := by
      rw [binary_tree_get_parent]; simp only; omega
    have hpar_lev : (binary_tree_get_parent k).level ≤ L - 1 := by
      rw [binary_tree_get_parent]; simp only; omega
    have hpar_eq : ((binary_tree_get_parent k).local_node_id + 1) *
        2 ^ (L - 1 - (binary_tree_get_parent k).level) =
        (k.local_node_id + 1) * 2 ^ (L - 1 - k.level) := by
      rw [binary_tree_get_parent]
      simp only
      exact parent_step_eq (L - 1) k hodd hpos hlev
    cases strat with
    | HIERARCHICAL_ITERATION_STRICT =>
      have hb : dfsBacktrack .HIERARCHICAL_ITERATION_STRICT k =
          ⟨(find_first_left_parent k).level,
           (find_first_left_parent k).local_node_id + 1⟩ := by
        rw [dfsBacktrack, if_pos hrc]; rfl
      have hcl := climb_spec (L - 1) k.level (binary_tree_get_parent k)
        hpar_val hpar_lev
      obtain ⟨ha, hlev2, hc⟩ := hcl
      rw [hb]
      refine ⟨?_, ?_, ?_⟩
      · simp only
        rw [find_first_left_parent]
        exact le_trans hlev2 hpar_lev
      · simp only
        rw [find_first_left_parent]
        omega
      · simp only
        rw [find_first_left_parent, hc]
        exact hpar_eq
    | HIERARCHICAL_ITERATION_RELAXED =>
      have hb : dfsBacktrack .HIERARCHICAL_ITERATION_RELAXED k =
          ⟨(binary_tree_get_parent k).level,
           (binary_tree_get_parent k).local_node_id + 1⟩ := by
        rw [dfsBacktrack, if_pos hrc]; rfl
      rw [hb]
      refine ⟨hpar_lev, ?_, hpar_eq⟩
      simp only
      omega
  · have hb : dfsBacktrack strat k = ⟨k.level, k.local_node_id + 1⟩ := by
      rw [dfsBacktrack, if_neg hrc]
    rw [hb]
    exact ⟨hlev, by simp only; omega, rfl⟩

theorem dfs_lnid_strict (L N : Nat) (s : DfsState) (hinv : DfsInv L s)
    (hN : N ≤ 2 ^ (L - 1)) (hcov : s.num_covered_particles < N) :
    s.current.local_node_id < 2 ^ s.current.level := by
  obtain ⟨hlev, hlnid, hcovEq⟩ := hinv
  by_contra h
  have he : s.current.local_node_id = 2 ^ s.current.level := by omega
  have hsplit : 2 ^ s.current.level * 2 ^ (L - 1 - s.current.level) = 2 ^ (L - 1) := by
    rw [← pow_add]
    congr 1
    omega
  rw [dfsLeftmost, he, hsplit] at hcovEq
  omega

theorem dfsStep_particle_eq (L : Nat) (strat : depth_first_iteration_strategy)
    (nsel : binary_tree_key_t → Bool) (psel : Nat → Bool) (s : DfsState)
    (hpl : s.current.level = L - 1) :
    dfsStep L strat nsel psel s =
      { current :=
          if psel s.current.local_node_id then
            ⟨s.current.level, s.current.local_node_id + 1⟩
          else dfsBacktrack strat s.current,
        num_covered_particles := s.num_covered_particles + 1,
        trace := s.trace ++
          [DfsEvent.particleQuery s.current.local_node_id
            (psel s.current.local_node_id)] } := by
  rw [dfsStep, if_pos hpl]

theorem dfsStep_node_acc_eq (L : Nat) (strat : depth_first_iteration_strategy)
    (nsel : binary_tree_key_t → Bool) (psel : Nat → Bool) (s : DfsState)
    (hpl : ¬ s.current.level = L - 1) (hsel : nsel s.current = true) :
    dfsStep L strat nsel psel s =
      { current := binary_tree_get_children_begin s.current,
        num_covered_particles := s.num_covered_particles,
        trace := s.trace ++ [DfsEvent.nodeQuery s.current true] } := by
  rw [dfsStep, if_neg hpl]
  simp only [hsel, if_pos]

theorem dfsStep_node_rej_eq (L : Nat) (strat : depth_first_iteration_strategy)
    (nsel : binary_tree_key_t → Bool) (psel : Nat → Bool) (s : DfsState)
    (hpl : ¬ s.current.level = L - 1) (hsel : nsel s.current = false) :
    dfsStep L strat nsel psel s =
      { current := dfsBacktrack strat s.current,
        num_covered_particles :=
          s.num_covered_particles + BT_LEAVES_PER_NODE s.current.level L,
        trace := s.trace ++ [DfsEvent.nodeQuery s.current false] } := by
  rw [dfsStep, if_neg hpl]
  simp [hsel]

theorem dfs_inv_step (L N : Nat) (strat : depth_first_iteration_strategy)
    (nsel : binary_tree_key_t → Bool) (psel : Nat → Bool) (s : DfsState)
    (hN : N ≤ 2 ^ (L - 1)) (hinv : DfsInv L s)
    (hcov : s.num_covered_particles < N) :
    DfsInv L (dfsStep L strat nsel psel s) := by
  obtain ⟨hlev, hlnid, hcovEq⟩ := hinv
  have hstrict := dfs_lnid_strict L N s ⟨hlev, hlnid, hcovEq⟩ hN hcov
  by_cases hpl : s.current.level = L - 1
  · -- particle level
    have hexp : L - 1 - s.current.level = 0 := by omega
    have hcov1 : s.num_covered_particles = s.current.local_node_id := by
      rw [hcovEq, dfsLeftmost, hexp, pow_zero, Nat.mul_one]
    rw [dfsStep_particle_eq L strat nsel psel s hpl]
    by_cases hsel : psel s.current.local_node_id = true
    · rw [if_pos hsel]
      refine ⟨hpl.le, by simp only; omega, ?_⟩
      rw [dfsLeftmost]
      simp only [hexp, pow_zero, Nat.mul_one]
      omega
    · rw [if_neg hsel]
      obtain ⟨hb1, hb2, hb3⟩ := dfs_backtrack_spec L strat s.current hlev hstrict
      refine ⟨hb1, hb2, ?_⟩
      rw [dfsLeftmost]
      simp only
      rw [hb3, hexp, pow_zero, Nat.mul_one]
      omega
  · -- node level
    have hlt : s.current.level < L - 1 := by omega
    by_cases hsel : nsel s.current = true
    · rw [dfsStep_node_acc_eq L strat nsel psel s hpl hsel]
      refine ⟨?_, ?_, ?_⟩
      · rw [binary_tree_get_children_begin]
        simp only
        omega
      · rw [binary_tree_get_children_begin]
        simp only
        calc s.current.local_node_id * 2 ≤ 2 ^ s.current.level * 2 :=
              Nat.mul_le_mul_right _ hlnid
          _ = 2 ^ (s.current.level + 1) := (pow_succ 2 _).symm
      · rw [dfsLeftmost, binary_tree_get_children_begin]
        simp only
        rw [hcovEq, dfsLeftmost]
        have he : L - 1 - s.current.level = (L - 1 - (s.current.level + 1)) + 1 := by
          omega
        rw [he, pow_succ]
        ring
    · have hsel2 : nsel s.current = false := by
        revert hsel
        cases nsel s.current <;> simp
      rw [dfsStep_node_rej_eq L strat nsel psel s hpl hsel2]
      obtain ⟨hb1, hb2, hb3⟩ := dfs_backtrack_spec L strat s.current hlev hstrict
      refine ⟨hb1, hb2, ?_⟩
      rw [dfsLeftmost]
      simp only
      rw [hb3, hcovEq, dfsLeftmost, BT_LEAVES_PER_NODE]
      ring

theorem dfs_step_covered (L : Nat) (strat : depth_first_iteration_strategy)
    (nsel : binary_tree_key_t → Bool) (psel : Nat → Bool) (s : DfsState) :
    (dfsStep L strat nsel psel s).num_covered_particles =
      (if s.current.level = L - 1 then s.num_covered_particles + 1
       else if nsel s.current then s.num_covered_particles
       else s.num_covered_particles + BT_LEAVES_PER_NODE s.current.level L) := by
  by_cases hpl : s.current.level = L - 1
  · rw [dfsStep_particle_eq L strat nsel psel s hpl, if_pos hpl]
  · by_cases hsel : nsel s.current = true
    · rw [dfsStep_node_acc_eq L strat nsel psel s hpl hsel, if_neg hpl, if_pos hsel]
    · have hsel2 : nsel s.current = false := by
        revert hsel
        cases nsel s.current <;> simp
      rw [dfsStep_node_rej_eq L strat nsel psel s hpl hsel2, if_neg hpl]
      rw [hsel2]
      simp

theorem dfs_measure_step (L N : Nat) (strat : depth_first_iteration_strategy)
    (nsel : binary_tree_key_t → Bool) (psel : Nat → Bool) (s : DfsState)
    (hL : 1 ≤ L) (hinv : DfsInv L s) (hcov : s.num_covered_particles < N) :
    dfsMeasure L N (dfsStep L strat nsel psel s) < dfsMeasure L N s := by
  obtain ⟨hlev, hlnid, hcovEq⟩ := hinv
  -- the case where covered increases by at least one
  have hgen : ∀ (s2 : DfsState),
      s.num_covered_particles + 1 ≤ s2.num_covered_particles →
      dfsMeasure L N s2 < dfsMeasure L N s := by
    intro s2 hinc
    unfold dfsMeasure
    have h2 : (N - s2.num_covered_particles) * L ≤
        (N - (s.num_covered_particles + 1)) * L :=
      Nat.mul_le_mul_right _ (by omega)
    have h3 : (N - (s.num_covered_particles + 1)) * L + L =
        (N - s.num_covered_particles) * L := by
      have h4 : (N - (s.num_covered_particles + 1)) + 1 =
          N - s.num_covered_particles := by omega
      calc (N - (s.num_covered_particles + 1)) * L + L
          = ((N - (s.num_covered_particles + 1)) + 1) * L := by ring
        _ = (N - s.num_covered_particles) * L := by rw [h4]
    have h5 : L - 1 - s2.current.level ≤ L - 1 := by omega
    omega
  by_cases hpl : s.current.level = L - 1
  · apply hgen
    rw [dfsStep_particle_eq L strat nsel psel s hpl]
  · by_cases hsel : nsel s.current = true
    · -- descend: covered unchanged, level increases by one
      rw [dfsStep_node_acc_eq L strat nsel psel s hpl hsel]
      unfold dfsMeasure
      rw [binary_tree_get_children_begin]
      simp only
      have : s.current.level < L - 1 := by omega
      omega
    · have hsel2 : nsel s.current = false := by
        revert hsel
        cases nsel s.current <;> simp
      apply hgen
      rw [dfsStep_node_rej_eq L strat nsel psel s hpl hsel2]
      simp only
      have : 1 ≤ BT_LEAVES_PER_NODE s.current.level L := Nat.one_le_two_pow
      omega

theorem dfs_exec_total (L N : Nat) (strat : depth_first_iteration_strategy)
    (nsel : binary_tree_key_t → Bool) (psel : Nat → Bool)
    (hL : 1 ≤ L) (hN : N ≤ 2 ^ (L - 1)) :
    ∀ (fuel : Nat) (s : DfsState), DfsInv L s → dfsMeasure L N s ≤ fuel →
      DfsInv L (dfsExec L N strat nsel psel fuel s) ∧
        N ≤ (dfsExec L N strat nsel psel fuel s).num_covered_particles := by
  intro fuel
  induction fuel with
  | zero =>
    intro s hinv hm
    rw [dfsExec]
    refine ⟨hinv, ?_⟩
    by_contra h
    have hcov : s.num_covered_particles < N := by omega
    have : 1 ≤ (N - s.num_covered_particles) * L :=
      Nat.one_le_iff_ne_zero.mpr (Nat.mul_ne_zero (by omega) (by omega))
    unfold dfsMeasure at hm
    omega
  | succ fuel ih =>
    intro s hinv hm
    rw [dfsExec]
    by_cases hcov : s.num_covered_particles < N
    · rw [if_pos hcov]
      exact ih (dfsStep L strat nsel psel s)
        (dfs_inv_step L N strat nsel psel s hN hinv hcov)
        (by
          have := dfs_measure_step L N strat nsel psel s hL hinv hcov
          omega)
    · rw [if_neg hcov]
      exact ⟨hinv, by omega⟩

theorem dfs_init_inv (L : Nat) : DfsInv L dfsInit := by
  refine ⟨Nat.zero_le _, by simp [dfsInit], ?_⟩
  simp [dfsInit, dfsLeftmost]

theorem dfs_init_measure (L N : Nat) (hL : 1 ≤ L) :
    dfsMeasure L N dfsInit ≤ (N + 1) * L := by
  unfold dfsMeasure dfsInit
  simp only
  have h1 : (N + 1) * L = N * L + L := by ring
  have h2 : N - 0 = N := rfl
  rw [h2, h1]
  omega

/-- Claim C2, counterexample to the claim as stated.  With `N = 3` true
particles (`effective_num_levels = 3`, `effective_num_particles = 4`) and a
handler rejecting the root, the pruned-node step adds
`leaves_per_node(0) = 4`, so the loop terminates with
`num_covered_particles = 4 ≠ 3`: the counter does not reach exactly `N`.
Moreover an iteration that accepts a node (a descend step) leaves the
counter unchanged, so it does not strictly increase on every iteration. -/
theorem c2_counterexample :
    (dfsExec 3 3 .HIERARCHICAL_ITERATION_STRICT
        (fun _ => false) (fun _ => false) 12 dfsInit).num_covered_particles = 4 ∧
      ¬ (dfsExec 3 3 .HIERARCHICAL_ITERATION_STRICT
          (fun _ => false) (fun _ => false) 12 dfsInit).num_covered_particles = 3 ∧
      (dfsStep 3 .HIERARCHICAL_ITERATION_STRICT
          (fun _ => true) (fun _ => true) dfsInit).num_covered_particles =
        dfsInit.num_covered_particles := by
  decide

/-- Claim C2, amended: for every tree (`1 ≤ N ≤ effective_num_particles =
2^(L-1)`), either strategy and any handler decisions, each loop iteration
changes `num_covered_particles` by exactly +1 on a particle-level step, by
`leaves_per_node(level)` on a pruned-node step, and by 0 on an accepted-node
(descend) step; the `while` loop terminates within `(N+1)*L` iterations with
`num_covered_particles ≥ N` (and exactly `N` whenever `N` is the padded
particle count `2^(L-1)`, e.g. a power of two). -/
theorem c2_dfs_covered_terminates (L N : Nat)
    (strat : depth_first_iteration_strategy)
    (nsel : binary_tree_key_t → Bool) (psel : Nat → Bool)
    (hL : 1 ≤ L) (hN1 : 1 ≤ N) (hN : N ≤ 2 ^ (L - 1)) :
    (∀ s : DfsState,
      (dfsStep L strat nsel psel s).num_covered_particles =
        (if s.current.level = L - 1 then s.num_covered_particles + 1
         else if nsel s.current then s.num_covered_particles
         else s.num_covered_particles + BT_LEAVES_PER_NODE s.current.level L)) ∧
      N ≤ (dfsExec L N strat nsel psel ((N + 1) * L)
            dfsInit).num_covered_particles ∧
      (N = 2 ^ (L - 1) →
        (dfsExec L N strat nsel psel ((N + 1) * L)
            dfsInit).num_covered_particles = N) := by
  obtain ⟨hinv, hge⟩ := dfs_exec_total L N strat nsel psel hL hN ((N + 1) * L)
    dfsInit (dfs_init_inv L) (dfs_init_measure L N hL)
  refine ⟨dfs_step_covered L strat nsel psel, hge, ?_⟩
  intro hpow
  obtain ⟨hlev, hlnid, hcovEq⟩ := hinv
  have hle : (dfsExec L N strat nsel psel ((N + 1) * L)
      dfsInit).num_covered_particles ≤ 2 ^ (L - 1) := by
    rw [hcovEq, dfsLeftmost]
    have hsplit : 2 ^ (dfsExec L N strat nsel psel ((N + 1) * L)
          dfsInit).current.level *
        2 ^ (L - 1 - (dfsExec L N strat nsel psel ((N + 1) * L)
          dfsInit).current.level) = 2 ^ (L - 1) := by
      rw [← pow_add]
      congr 1
      omega
    calc (dfsExec L N strat nsel psel ((N + 1) * L)
          dfsInit).current.local_node_id *
          2 ^ (L - 1 - (dfsExec L N strat nsel psel ((N + 1) * L)
            dfsInit).current.level)
        ≤ 2 ^ (dfsExec L N strat nsel psel ((N + 1) * L)
            dfsInit).current.level *
          2 ^ (L - 1 - (dfsExec L N strat nsel psel ((N + 1) * L)
            dfsInit).current.level) := Nat.mul_le_mul_right _ hlnid
      _ = 2 ^ (L - 1) := hsplit
  omega

/-- Witness for C2 (amended) at `L = 2`, `N = 2`, strict strategy,
accept-everything handler. -/
theorem c2_witness :
    2 ≤ (dfsExec 2 2 .HIERARCHICAL_ITERATION_STRICT
        (fun _ => true) (fun _ => true) ((2 + 1) * 2) dfsInit).num_covered_particles :=
  (c2_dfs_covered_terminates 2 2 .HIERARCHICAL_ITERATION_STRICT
    (fun _ => true) (fun _ => true) (by decide) (by decide) (by decide)).2.1

theorem particleQueries_append (l1 l2 : List DfsEvent) :
    particleQueries (l1 ++ l2) = particleQueries l1 ++ particleQueries l2 :=
  List.filterMap_append l1 l2 _

theorem dfs_exec_trace_ok (L N : Nat) (strat : depth_first_iteration_strategy)
    (nsel : binary_tree_key_t → Bool) (psel : Nat → Bool)
    (hN : N ≤ 2 ^ (L - 1)) :
    ∀ (fuel : Nat) (s : DfsState), DfsInv L s →
      (∀ k b, DfsEvent.nodeQuery k b ∈ s.trace → dfsLeftmost L k < N) →
      (∀ i b, DfsEvent.particleQuery i b ∈ s.trace → i < N) →
      (∀ k b, DfsEvent.nodeQuery k b ∈
          (dfsExec L N strat nsel psel fuel s).trace → dfsLeftmost L k < N) ∧
        (∀ i b, DfsEvent.particleQuery i b ∈
          (dfsExec L N strat nsel psel fuel s).trace → i < N) := by
  intro fuel
  induction fuel with
  | zero =>
    intro s _ hnode hpart
    rw [dfsExec]
    exact ⟨hnode, hpart⟩
  | succ fuel ih =>
    intro s hinv hnode hpart
    rw [dfsExec]
    by_cases hcov : s.num_covered_particles < N
    · rw [if_pos hcov]
      have hinv2 := dfs_inv_step L N strat nsel psel s hN hinv hcov
      obtain ⟨hlev, hlnid, hcovEq⟩ := hinv
      -- the one event appended by the step names the current node / particle,
      -- whose leftmost covered slot is the counter, which is < N
      have htr : ∃ ev : DfsEvent,
          (dfsStep L strat nsel psel s).trace = s.trace ++ [ev] ∧
          (∀ k b, ev = DfsEvent.nodeQuery k b → dfsLeftmost L k < N) ∧
          (∀ i b, ev = DfsEvent.particleQuery i b → i < N) := by
        by_cases hpl : s.current.level = L - 1
        · refine ⟨DfsEvent.particleQuery s.current.local_node_id
            (psel s.current.local_node_id), ?_, ?_, ?_⟩
          · rw [dfsStep_particle_eq L strat nsel psel s hpl]
          · intro k b h
            cases h
          · intro i b h
            cases h
            have hexp : L - 1 - s.current.level = 0 := by omega
            rw [hcovEq, dfsLeftmost, hexp, pow_zero, Nat.mul_one] at hcov
            exact hcov
        · refine ⟨DfsEvent.nodeQuery s.current (nsel s.current), ?_, ?_, ?_⟩
          · by_cases hsel : nsel s.current = true
            · rw [dfsStep_node_acc_eq L strat nsel psel s hpl hsel, hsel]
            · have hsel2 : nsel s.current = false := by
                revert hsel
                cases nsel s.current <;> simp
              rw [dfsStep_node_rej_eq L strat nsel psel s hpl hsel2, hsel2]
          · intro k b h
            cases h
            rw [← hcovEq]
            exact hcov
          · intro i b h
            cases h
      obtain ⟨ev, hev, hevn, hevp⟩ := htr
      refine ih (dfsStep L strat nsel psel s) hinv2 ?_ ?_
      · intro k b hk
        rw [hev] at hk
        rcases List.mem_append.mp hk with h | h
        · exact hnode k b h
        · exact hevn k b (List.mem_singleton.mp h).symm
      · intro i b hi
        rw [hev] at hi
        rcases List.mem_append.mp hi with h | h
        · exact hpart i b h
        · exact hevp i b (List.mem_singleton.mp h).symm
    · rw [if_neg hcov]
      exact ⟨hnode, hpart⟩

theorem dfs_accept_all_canonical (L N : Nat)
    (strat : depth_first_iteration_strategy)
    (nsel : binary_tree_key_t → Bool) (psel : Nat → Bool)
    (hacc : ∀ k, nsel k = true) (hL : 1 ≤ L) (hN : N ≤ 2 ^ (L - 1)) :
    ∀ (fuel : Nat) (s : DfsState), DfsInv L s →
      s.num_covered_particles ≤ N →
      particleQueries s.trace =
        (List.range s.num_covered_particles).map (fun i => (i, psel i)) →
      dfsMeasure L N s ≤ fuel →
      (dfsExec L N strat nsel psel fuel s).num_covered_particles = N ∧
        particleQueries (dfsExec L N strat nsel psel fuel s).trace =
          (List.range N).map (fun i => (i, psel i)) := by
  intro fuel
  induction fuel with
  | zero =>
    intro s _ hle htr hm
    have heq : s.num_covered_particles = N := by
      by_contra h
      have hcov : s.num_covered_particles < N := by omega
      have : 1 ≤ (N - s.num_covered_particles) * L :=
        Nat.one_le_iff_ne_zero.mpr (Nat.mul_ne_zero (by omega) (by omega))
      unfold dfsMeasure at hm
      omega
    rw [dfsExec]
    rw [heq] at htr
    exact ⟨heq, htr⟩
  | succ fuel ih =>
    intro s hinv hle htr hm
    rw [dfsExec]
    by_cases hcov : s.num_covered_particles < N
    · rw [if_pos hcov]
      have hinv2 := dfs_inv_step L N strat nsel psel s hN hinv hcov
      have hmeas := dfs_measure_step L N strat nsel psel s hL hinv hcov
      obtain ⟨hlev, hlnid, hcovEq⟩ := hinv
      by_cases hpl : s.current.level = L - 1
      · -- a particle step: the processed index is the counter
        have hexp : L - 1 - s.current.level = 0 := by omega
        have hidx : s.current.local_node_id = s.num_covered_particles := by
          rw [hcovEq, dfsLeftmost, hexp, pow_zero, Nat.mul_one]
        refine ih (dfsStep L strat nsel psel s) hinv2 ?_ ?_ (by omega)
        · rw [dfsStep_particle_eq L strat nsel psel s hpl]
          simp only
          omega
        · rw [dfsStep_particle_eq L strat nsel psel s hpl]
          simp only
          rw [particleQueries_append, htr, hidx]
          rw [List.range_succ, List.map_append]
          congr 1
      · -- with an always-accepting node selector every node step descends
        have hsel : nsel s.current = true := hacc s.current
        refine ih (dfsStep L strat nsel psel s) hinv2 ?_ ?_ (by omega)
        · rw [dfsStep_node_acc_eq L strat nsel psel s hpl hsel]
          simp only
          omega
        · rw [dfsStep_node_acc_eq L strat nsel psel s hpl hsel]
          simp only
          rw [particleQueries_append, htr]
          have : particleQueries [DfsEvent.nodeQuery s.current true] = [] := rfl
          rw [this, List.append_nil]
    · rw [if_neg hcov]
      have heq : s.num_covered_particles = N := by omega
      rw [heq] at htr
      exact ⟨heq, htr⟩

/-- Claim C3, counterexample to the claim as stated.  Tree with 16
particles (`effective_num_levels = 5`), particle selector accepting
everything, deterministic node selector accepting exactly the nodes
(0,0), (1,0), (2,0), (2,1), (2,2), (3,4).  After node (3,3) is rejected,
the strict strategy climbs to (1,1) — which the handler rejects, pruning
particles 8..15 — while the relaxed strategy steps to (2,2) — which the
handler accepts, reaching and selecting particles 8..15.  Both runs
terminate (covered = 16), yet both the selected-particle sets and the
selected-node sets differ between the two strategies. -/
theorem c3_counterexample :
    (dfsExec 5 16 .HIERARCHICAL_ITERATION_STRICT
        (fun k => decide ((k.level, k.local_node_id) ∈
          [(0,0),(1,0),(2,0),(2,1),(2,2),(3,4)]))
        (fun _ => true) 85 dfsInit).num_covered_particles = 16 ∧
      (dfsExec 5 16 .HIERARCHICAL_ITERATION_RELAXED
        (fun k => decide ((k.level, k.local_node_id) ∈
          [(0,0),(1,0),(2,0),(2,1),(2,2),(3,4)]))
        (fun _ => true) 85 dfsInit).num_covered_particles = 16 ∧
      selectedParticles (dfsExec 5 16 .HIERARCHICAL_ITERATION_STRICT
        (fun k => decide ((k.level, k.local_node_id) ∈
          [(0,0),(1,0),(2,0),(2,1),(2,2),(3,4)]))
        (fun _ => true) 85 dfsInit).trace = [] ∧
      selectedParticles (dfsExec 5 16 .HIERARCHICAL_ITERATION_RELAXED
        (fun k => decide ((k.level, k.local_node_id) ∈
          [(0,0),(1,0),(2,0),(2,1),(2,2),(3,4)]))
        (fun _ => true) 85 dfsInit).trace = [8, 9, 10, 11, 12, 13, 14, 15] ∧
      selectedNodes (dfsExec 5 16 .HIERARCHICAL_ITERATION_STRICT
        (fun k => decide ((k.level, k.local_node_id) ∈
          [(0,0),(1,0),(2,0),(2,1),(2,2),(3,4)]))
        (fun _ => true) 85 dfsInit).trace ≠
      selectedNodes (dfsExec 5 16 .HIERARCHICAL_ITERATION_RELAXED
        (fun k => decide ((k.level, k.local_node_id) ∈
          [(0,0),(1,0),(2,0),(2,1),(2,2),(3,4)]))
        (fun _ => true) 85 dfsInit).trace := by
  decide

/-- Claim C3, amended: for every tree and any deterministic handler whose
node selector accepts every node (particle selector arbitrary), the STRICT
and RELAXED runs both process exactly the particles `0 .. N-1` in
increasing order with identical selection outcomes, so their
particle-query sequences and selected-particle sets coincide (and both
loops terminate with `covered = N`).  For general handlers the two
strategies can select different particle sets and different node sets, as
the counterexample shows. -/
theorem c3_strategies_agree_on_accepting_node_selector (L N : Nat)
    (nsel : binary_tree_key_t → Bool) (psel : Nat → Bool)
    (hacc : ∀ k, nsel k = true) (hL : 1 ≤ L) (hN : N ≤ 2 ^ (L - 1)) :
    particleQueries (dfsExec L N .HIERARCHICAL_ITERATION_STRICT nsel psel
        ((N + 1) * L) dfsInit).trace =
      (List.range N).map (fun i => (i, psel i)) ∧
    particleQueries (dfsExec L N .HIERARCHICAL_ITERATION_RELAXED nsel psel
        ((N + 1) * L) dfsInit).trace =
      (List.range N).map (fun i => (i, psel i)) ∧
    particleQueries (dfsExec L N .HIERARCHICAL_ITERATION_STRICT nsel psel
        ((N + 1) * L) dfsInit).trace =
      particleQueries (dfsExec L N .HIERARCHICAL_ITERATION_RELAXED nsel psel
        ((N + 1) * L) dfsInit).trace ∧
    selectedParticles (dfsExec L N .HIERARCHICAL_ITERATION_STRICT nsel psel
        ((N + 1) * L) dfsInit).trace =
      selectedParticles (dfsExec L N .HIERARCHICAL_ITERATION_RELAXED nsel psel
        ((N + 1) * L) dfsInit).trace ∧
    (dfsExec L N .HIERARCHICAL_ITERATION_STRICT nsel psel
        ((N + 1) * L) dfsInit).num_covered_particles = N ∧
    (dfsExec L N .HIERARCHICAL_ITERATION_RELAXED nsel psel
        ((N + 1) * L) dfsInit).num_covered_particles = N := by
  have hinit : particleQueries dfsInit.trace =
      (List.range dfsInit.num_covered_particles).map (fun i => (i, psel i)) := rfl
  obtain ⟨hcs, hts⟩ := dfs_accept_all_canonical L N
    .HIERARCHICAL_ITERATION_STRICT nsel psel hacc hL hN ((N + 1) * L) dfsInit
    (dfs_init_inv L) (Nat.zero_le _) hinit (dfs_init_measure L N hL)
  obtain ⟨hcr, htr⟩ := dfs_accept_all_canonical L N
    .HIERARCHICAL_ITERATION_RELAXED nsel psel hacc hL hN ((N + 1) * L) dfsInit
    (dfs_init_inv L) (Nat.zero_le _) hinit (dfs_init_measure L N hL)
  refine ⟨hts, htr, by rw [hts, htr], ?_, hcs, hcr⟩
  unfold selectedParticles
  rw [hts, htr]

/-- Witness for C3 (amended) at `L = 3`, `N = 4`, with a particle selector
keeping the even particles. -/
theorem c3_witness :
    particleQueries (dfsExec 3 4 .HIERARCHICAL_ITERATION_STRICT
        (fun _ => true) (fun i => decide (i % 2 = 0)) ((4 + 1) * 3) dfsInit).trace =
      (List.range 4).map (fun i => (i, decide (i % 2 = 0))) :=
  (c3_strategies_agree_on_accepting_node_selector 3 4
    (fun _ => true) (fun i => decide (i % 2 = 0))
    (fun _ => rfl) (by decide) (by decide)).1

/-! ### BFS kernel: working-set invariant, claims C1, C4, C5, C6, C7, C10 -/

theorem used_le (L N v x y : Nat) (hxy : x ≤ y)
    (hy : binary_tree_is_node_used ⟨v, y⟩ L N = true) :
    binary_tree_is_node_used ⟨v, x⟩ L N = true := by
  rw [binary_tree_is_node_used] at hy ⊢
  simp only [decide_eq_true_eq] at hy ⊢
  calc x * 2 ^ (L - 1 - v) ≤ y * 2 ^ (L - 1 - v) := Nat.mul_le_mul_right _ hxy
    _ < N := hy

theorem used_left_child (L N v a : Nat) (h1 : 1 ≤ v) (h2 : v ≤ L - 1)
    (ha : binary_tree_is_node_used ⟨v - 1, a⟩ L N = true) :
    binary_tree_is_node_used ⟨v, a * 2⟩ L N = true := by
  rw [binary_tree_is_node_used] at ha ⊢
  simp only [decide_eq_true_eq] at ha ⊢
  have he : L - 1 - (v - 1) = (L - 1 - v) + 1 := by omega
  rw [he, pow_succ] at ha
  calc a * 2 * 2 ^ (L - 1 - v) = a * (2 ^ (L - 1 - v) * 2) := by ring
    _ < N := ha

theorem getD_lt_of_pairwise (ws : List Nat) (hs : ws.Pairwise (· < ·))
    (t u : Nat) (htu : t < u) (hu : u < ws.length) :
    ws.getD t 0 < ws.getD u 0 := by
  have ht : t < ws.length := lt_trans htu hu
  rw [List.getD_eq_getElem ws 0 ht, List.getD_eq_getElem ws 0 hu]
  have := List.pairwise_iff_get.mp hs ⟨t, ht⟩ ⟨u, hu⟩ (by simpa using htu)
  simpa using this

theorem getD_mem_of_lt (ws : List Nat) (t : Nat) (ht : t < ws.length) :
    ws.getD t 0 ∈ ws := by
  rw [List.getD_eq_getElem ws 0 ht]
  exact List.getElem_mem ht

/-- Key working-set lemma: if the working set is a sorted list of existing
nodes of level `v-1`, then every candidate the kernel offers (index below
`available_children`) is an existing node of level `v`.  All non-last
candidates exist automatically (a left child inherits existence from its
parent, and a right child is dominated by the left child of the next
parent), so the single rightmost existence correction suffices. -/
theorem offered_used (L N v : Nat) (ws : List Nat)
    (h1 : 1 ≤ v) (h2 : v ≤ L - 1) (hne : ws ≠ [])
    (hs : ws.Pairwise (· < ·))
    (hu : ∀ a ∈ ws, binary_tree_is_node_used ⟨v - 1, a⟩ L N = true) :
    ∀ i, i < bfs_available_children L N v ws →
      binary_tree_is_node_used
        ⟨v, get_lnid_from_available_children_index ws i⟩ L N = true := by
  intro i hi
  have hc : 1 ≤ ws.length := List.length_pos.mpr hne
  have hm2 : bfs_available_children L N v ws ≤ 2 * ws.length := by
    rw [bfs_available_children]
    split <;> omega
  rw [get_lnid_from_available_children_index, BT_LOCAL_NODE_ID_OF_LEFT_CHILD]
  by_cases hpar : i % 2 = 0
  · -- a left child: inherits existence from its parent
    rw [hpar, Nat.add_zero]
    have hq : i / 2 < ws.length := by omega
    exact used_left_child L N v _ h1 h2 (hu _ (getD_mem_of_lt ws _ hq))
  · have hodd : i % 2 = 1 := by omega
    rw [hodd]
    by_cases hlast : i / 2 = ws.length - 1
    · -- the rightmost candidate: it was offered, so the existence test passed
      rw [bfs_available_children] at hi
      by_cases hbu : binary_tree_is_node_used
          (binary_tree_get_children_last
            ⟨v - 1, ws.getD (ws.length - 1) 0⟩) L N = true
      · rw [binary_tree_get_children_last] at hbu
        simp only at hbu
        have hv : v - 1 + 1 = v := by omega
        rw [hv] at hbu
        rw [hlast]
        exact hbu
      · rw [if_neg hbu] at hi
        omega
    · -- a non-last right child: dominated by the next parent's left child
      have hq : i / 2 + 1 < ws.length := by omega
      have hlt : ws.getD (i / 2) 0 < ws.getD (i / 2 + 1) 0 :=
        getD_lt_of_pairwise ws hs _ _ (Nat.lt_succ_self _) hq
      have hnext := used_left_child L N v _ h1 h2
        (hu _ (getD_mem_of_lt ws _ hq))
      exact used_le L N v _ _ (by omega) hnext

theorem list_set_of_len_le (l : List Nat) (n : Nat) (a : Nat)
    (h : l.length ≤ n) : l.set n a = l := by
  induction l generalizing n with
  | nil => rfl
  | cons x xs ih =>
    cases n with
    | zero => simp at h
    | succ n =>
      simp only [List.set]
      rw [ih n (by simpa using h)]

theorem take_set_self (l : List Nat) (n : Nat) (a : Nat) :
    (l.set n a).take n = l.take n := by
  induction l generalizing n with
  | nil => rfl
  | cons x xs ih =>
    cases n with
    | zero => rfl
    | succ n =>
      simp only [List.set, List.take]
      rw [ih n]

theorem take_set_succ (l : List Nat) (n : Nat) (a : Nat) (h : n < l.length) :
    (l.set n a).take (n + 1) = l.take n ++ [a] := by
  induction l generalizing n with
  | nil => simp at h
  | cons x xs ih =>
    cases n with
    | zero => rfl
    | succ n =>
      simp only [List.set, List.take, List.cons_append, List.cons.injEq,
        true_and]
      exact ih n (by simpa using h)

theorem bfs_compact_take (C : Nat) :
    ∀ (l : List (Nat × Bool)) (cnt : Nat) (temp ws : List Nat),
      cnt ≤ C → temp.length = C →
      (l.foldl (bfs_compact_step C) (cnt, temp, ws)).1 ≤ C ∧
        (l.foldl (bfs_compact_step C) (cnt, temp, ws)).2.1.length = C ∧
        (l.foldl (bfs_compact_step C) (cnt, temp, ws)).2.1.take
            (l.foldl (bfs_compact_step C) (cnt, temp, ws)).1 =
          (temp.take cnt ++
            (l.filter (fun c => c.2)).map (fun c => c.1)).take C := by
  intro l
  induction l with
  | nil =>
    intro cnt temp ws hcnt htemp
    simp only [List.foldl_nil, List.filter_nil, List.map_nil, List.append_nil]
    refine ⟨hcnt, htemp, ?_⟩
    rw [List.take_take]
    congr 1
    omega
  | cons hd tl ih =>
    intro cnt temp ws hcnt htemp
    rw [List.foldl_cons]
    by_cases hsel : hd.2 = true
    · have hstep : bfs_compact_step C (cnt, temp, ws) hd =
          (min (cnt + 1) C, temp.set cnt hd.1, ws ++ [cnt]) := by
        rw [bfs_compact_step, if_pos hsel]
      rw [hstep]
      obtain ⟨ha, hb, hc⟩ := ih (min (cnt + 1) C) (temp.set cnt hd.1) (ws ++ [cnt])
        (by omega) (by rw [List.length_set]; exact htemp)
      refine ⟨ha, hb, ?_⟩
      rw [hc]
      have hfil : (hd :: tl).filter (fun c => c.2) =
          hd :: tl.filter (fun c => c.2) := by
        rw [List.filter_cons, if_pos (by simpa using hsel)]
      rw [hfil, List.map_cons]
      by_cases hlt : cnt < C
      · have hmin : min (cnt + 1) C = cnt + 1 := by omega
        rw [hmin, take_set_succ temp cnt hd.1 (by omega)]
        rw [List.append_assoc]
        rfl
      · have hcc : cnt = C := by omega
        have hmin : min (cnt + 1) C = C := by omega
        rw [hmin, hcc, list_set_of_len_le temp C hd.1 (by omega)]
        have h1 : temp.take C = temp := by
          rw [← htemp, List.take_length]
        rw [h1]
        have h2 : ∀ (r : List Nat), (temp ++ r).take C = temp := by
          intro r
          have h3 := @List.take_append _ temp r 0
          rw [htemp] at h3
          simpa using h3
        rw [h2, h2]
    · have hstep : bfs_compact_step C (cnt, temp, ws) hd = (cnt, temp, ws) := by
        rw [bfs_compact_step, if_neg hsel]
      rw [hstep]
      obtain ⟨ha, hb, hc⟩ := ih cnt temp ws hcnt htemp
      refine ⟨ha, hb, ?_⟩
      rw [hc]
      have hfil : (hd :: tl).filter (fun c => c.2) =
          tl.filter (fun c => c.2) := by
        rw [List.filter_cons, if_neg (by simpa using hsel)]
      rw [hfil]

theorem filter_fst_of_map (l : List Nat) (f : Nat → Nat × Bool) :
    ((l.map f).filter (fun c => c.2)).map (fun c => c.1) =
      (l.filter (fun i => (f i).2)).map (fun i => (f i).1) := by
  induction l with
  | nil => rfl
  | cons x xs ih =>
    rw [List.map_cons, List.filter_cons, List.filter_cons]
    by_cases h : (f x).2 = true
    · rw [if_pos (by simpa using h), if_pos (by simpa using h),
        List.map_cons, List.map_cons, ih]
    · rw [if_neg (by simpa using h), if_neg (by simpa using h), ih]

theorem lnid_strict_mono (ws : List Nat) (hs : ws.Pairwise (· < ·))
    (i j : Nat) (hij : i < j) (hj : j < 2 * ws.length) :
    get_lnid_from_available_children_index ws i <
      get_lnid_from_available_children_index ws j := by
  rw [get_lnid_from_available_children_index,
    get_lnid_from_available_children_index, BT_LOCAL_NODE_ID_OF_LEFT_CHILD,
    BT_LOCAL_NODE_ID_OF_LEFT_CHILD]
  by_cases heq : i / 2 = j / 2
  · rw [heq]
    omega
  · have hlt : i / 2 < j / 2 := by omega
    have := getD_lt_of_pairwise ws hs (i / 2) (j / 2) hlt (by omega)
    omega

theorem bfsBody_avail_eq (C N L : Nat) (sel : Nat → Nat → Bool) (v : Nat)
    (acc : BfsAcc) :
    (bfsBody C N L sel v acc).avail =
      (((List.range (2 * C)).filter (fun i =>
          decide (i < bfs_available_children L N v acc.avail) &&
            sel v (get_lnid_from_available_children_index acc.avail i))).map
        (get_lnid_from_available_children_index acc.avail)).take C := by
  obtain ⟨h1, h2, h3⟩ := bfs_compact_take C
    ((List.range (2 * C)).map fun i =>
      (get_lnid_from_available_children_index acc.avail i,
        decide (i < bfs_available_children L N v acc.avail) &&
          sel v (get_lnid_from_available_children_index acc.avail i)))
    0 (List.replicate C 0) [] (Nat.zero_le C) (List.length_replicate C 0)
  rw [bfsBody]
  simp only
  rw [h3]
  rw [List.take_zero, List.nil_append, filter_fst_of_map]

theorem bfsBody_ws_good (C N L : Nat) (sel : Nat → Nat → Bool) (v : Nat)
    (acc : BfsAcc) (h1 : 1 ≤ v) (h2 : v ≤ L - 1) (hne : acc.avail ≠ [])
    (hws : WsGood L N (v - 1) acc.avail) :
    WsGood L N v (bfsBody C N L sel v acc).avail := by
  obtain ⟨hsort, hused⟩ := hws
  have hm2 : bfs_available_children L N v acc.avail ≤ 2 * acc.avail.length := by
    rw [bfs_available_children]
    split <;> omega
  rw [bfsBody_avail_eq]
  constructor
  · apply List.Pairwise.sublist (List.take_sublist _ _)
    rw [List.pairwise_map]
    have hp : ((List.range (2 * C)).filter fun i =>
        decide (i < bfs_available_children L N v acc.avail) &&
          sel v (get_lnid_from_available_children_index acc.avail i)).Pairwise
        (· < ·) :=
      List.Pairwise.sublist (List.filter_sublist _) (List.pairwise_lt_range _)
    refine List.Pairwise.imp_of_mem ?_ hp
    intro a b ha hb hab
    have hbm : b < bfs_available_children L N v acc.avail := by
      have := (List.mem_filter.mp hb).2
      simp only [Bool.and_eq_true, decide_eq_true_eq] at this
      exact this.1
    exact lnid_strict_mono acc.avail hsort a b hab (by omega)
  · intro x hx
    obtain ⟨i, hifil, hieq⟩ := List.mem_map.mp (List.mem_of_mem_take hx)
    have him : i < bfs_available_children L N v acc.avail := by
      have := (List.mem_filter.mp hifil).2
      simp only [Bool.and_eq_true, decide_eq_true_eq] at this
      exact this.1
    rw [← hieq]
    exact offered_used L N v acc.avail h1 h2 hne hsort hused i him

theorem bfsBody_events_eq (C N L : Nat) (sel : Nat → Nat → Bool) (v : Nat)
    (acc : BfsAcc) :
    (bfsBody C N L sel v acc).events = acc.events ++
      [BfsEvent.nodeSel v acc.avail
        ((List.range (bfs_available_children L N v acc.avail)).map
          (get_lnid_from_available_children_index acc.avail))] := rfl

theorem bfsBody_iters_eq (C N L : Nat) (sel : Nat → Nat → Bool) (v : Nat)
    (acc : BfsAcc) :
    (bfsBody C N L sel v acc).levelIters = acc.levelIters + 1 := rfl

theorem available_children_formula (L N v : Nat) (ws : List Nat)
    (h1 : 1 ≤ v) :
    bfs_available_children L N v ws =
      (if (ws.getD (ws.length - 1) 0 * 2 + 1) * 2 ^ (L - 1 - v) < N
       then 2 * ws.length else 2 * ws.length - 1) := by
  rw [bfs_available_children, binary_tree_get_children_last,
    binary_tree_is_node_used]
  simp only
  have hv : v - 1 + 1 = v := by omega
  rw [hv]
  by_cases h : (ws.getD (ws.length - 1) 0 * 2 + 1) * 2 ^ (L - 1 - v) < N
  · rw [if_pos (by simpa using h), if_pos h]
  · rw [if_neg (by simpa using h), if_neg h]

theorem bfsLoop_count (C N L : Nat) (sel : Nat → Nat → Bool) :
    ∀ (fuel v : Nat) (acc : BfsAcc), 1 ≤ v →
      (∀ e ∈ acc.events, BfsEventCount L N e) →
      ∀ e ∈ (bfsLoop C N L sel fuel v acc).events, BfsEventCount L N e := by
  intro fuel
  induction fuel with
  | zero =>
    intro v acc _ hacc
    rw [bfsLoop]
    exact hacc
  | succ fuel ih =>
    intro v acc hv hacc
    rw [bfsLoop]
    by_cases hbr : acc.avail.length = 0 ∨ v = L - 1
    · rw [if_pos hbr]
      exact hacc
    · rw [if_neg hbr]
      refine ih (v + 1) (bfsBody C N L sel v acc) (by omega) ?_
      intro e he
      rw [bfsBody_events_eq] at he
      rcases List.mem_append.mp he with h | h
      · exact hacc e h
      · have hne : acc.avail ≠ [] := by
          intro hnil
          exact hbr (Or.inl (by rw [hnil]; rfl))
        rw [List.mem_singleton.mp h]
        refine ⟨hv, hne, ?_⟩
        rw [List.length_map, List.length_range]
        exact available_children_formula L N v acc.avail hv

theorem bfsLoop_ok (C N L : Nat) (sel : Nat → Nat → Bool)
    (hL2 : 2 ≤ L) (hL64 : L ≤ 64) :
    ∀ (fuel v : Nat) (acc : BfsAcc), 1 ≤ v → v ≤ L - 1 → v + fuel = 64 →
      WsGood L N (v - 1) acc.avail →
      (∀ e ∈ acc.events, BfsEventOk L N e) →
      ((bfsLoop C N L sel fuel v acc).avail ≠ [] →
          WsGood L N (L - 2) (bfsLoop C N L sel fuel v acc).avail) ∧
        (∀ e ∈ (bfsLoop C N L sel fuel v acc).events, BfsEventOk L N e) := by
  intro fuel
  induction fuel with
  | zero =>
    intro v acc hv hvL hsum _ _
    exfalso
    omega
  | succ fuel ih =>
    intro v acc hv hvL hsum hws hacc
    rw [bfsLoop]
    by_cases hbr : acc.avail.length = 0 ∨ v = L - 1
    · rw [if_pos hbr]
      refine ⟨?_, hacc⟩
      intro hne
      rcases hbr with h | h
      · exact absurd (List.length_eq_zero.mp h) hne
      · have hvv : v - 1 = L - 2 := by omega
        rw [← hvv]
        exact hws
    · rw [if_neg hbr]
      have hlen : ¬ acc.avail.length = 0 := fun h => hbr (Or.inl h)
      have hne : acc.avail ≠ [] := fun h => hlen (by rw [h]; rfl)
      have hvne : ¬ v = L - 1 := fun h => hbr (Or.inr h)
      refine ih (v + 1) (bfsBody C N L sel v acc) (by omega) (by omega)
        (by omega) ?_ ?_
      · have := bfsBody_ws_good C N L sel v acc hv (by omega) hne hws
        simpa using this
      · intro e he
        rw [bfsBody_events_eq] at he
        rcases List.mem_append.mp he with h | h
        · exact hacc e h
        · rw [List.mem_singleton.mp h]
          intro x hx
          obtain ⟨i, hir, hieq⟩ := List.mem_map.mp hx
          rw [← hieq]
          exact offered_used L N v acc.avail hv (by omega) hne hws.1 hws.2 i
            (List.mem_range.mp hir)

theorem bfsLoop_events_nodeSel (C N L : Nat) (sel : Nat → Nat → Bool) :
    ∀ (fuel v : Nat) (acc : BfsAcc),
      ∃ l, (bfsLoop C N L sel fuel v acc).events = acc.events ++ l ∧
        ∀ e ∈ l, ∃ a b c, e = BfsEvent.nodeSel a b c := by
  intro fuel
  induction fuel with
  | zero =>
    intro v acc
    rw [bfsLoop]
    exact ⟨[], (List.append_nil _).symm, by simp⟩
  | succ fuel ih =>
    intro v acc
    rw [bfsLoop]
    by_cases hbr : acc.avail.length = 0 ∨ v = L - 1
    · rw [if_pos hbr]
      exact ⟨[], (List.append_nil _).symm, by simp⟩
    · rw [if_neg hbr]
      obtain ⟨l, hl, hlall⟩ := ih (v + 1) (bfsBody C N L sel v acc)
      refine ⟨[BfsEvent.nodeSel v acc.avail
        ((List.range (bfs_available_children L N v acc.avail)).map
          (get_lnid_from_available_children_index acc.avail))] ++ l, ?_, ?_⟩
      · rw [hl, bfsBody_events_eq, List.append_assoc]
      · intro e he
        rcases List.mem_append.mp he with h | h
        · exact ⟨_, _, _, List.mem_singleton.mp h⟩
        · exact hlall e h

theorem bfsLoop_iters (C N L : Nat) (sel : Nat → Nat → Bool) :
    ∀ (fuel v : Nat) (acc : BfsAcc),
      (bfsLoop C N L sel fuel v acc).levelIters ≤ acc.levelIters + fuel := by
  intro fuel
  induction fuel with
  | zero =>
    intro v acc
    rw [bfsLoop]
    omega
  | succ fuel ih =>
    intro v acc
    rw [bfsLoop]
    by_cases hbr : acc.avail.length = 0 ∨ v = L - 1
    · rw [if_pos hbr]
      omega
    · rw [if_neg hbr]
      have := ih (v + 1) (bfsBody C N L sel v acc)
      rw [bfsBody_iters_eq] at this
      omega

theorem bfsQuery_avail_eq (C N L : Nat) (sel : Nat → Nat → Bool) :
    (bfsQuery C N L sel).avail =
      (bfsLoop C N L sel 63 1 ⟨[0], [BfsEvent.init], [], 0⟩).avail := by
  rw [bfsQuery]
  simp only
  split <;> rfl

theorem bfsQuery_iters_eq (C N L : Nat) (sel : Nat → Nat → Bool) :
    (bfsQuery C N L sel).levelIters =
      (bfsLoop C N L sel 63 1 ⟨[0], [BfsEvent.init], [], 0⟩).levelIters := by
  rw [bfsQuery]
  simp only
  split <;> rfl

theorem bfsQuery_tempWrites_eq (C N L : Nat) (sel : Nat → Nat → Bool) :
    (bfsQuery C N L sel).tempWrites =
      (bfsLoop C N L sel 63 1 ⟨[0], [BfsEvent.init], [], 0⟩).tempWrites := by
  rw [bfsQuery]
  simp only
  split <;> rfl

theorem bfsQuery_events_eq (C N L : Nat) (sel : Nat → Nat → Bool) :
    (bfsQuery C N L sel).events =
      (bfsLoop C N L sel 63 1 ⟨[0], [BfsEvent.init], [], 0⟩).events ++
        (if 0 < (bfsLoop C N L sel 63 1 ⟨[0], [BfsEvent.init], [], 0⟩).avail.length
         then [BfsEvent.partSel
            (bfsLoop C N L sel 63 1 ⟨[0], [BfsEvent.init], [], 0⟩).avail
            ((List.range
              (if N ≤ get_lnid_from_available_children_index
                  (bfsLoop C N L sel 63 1 ⟨[0], [BfsEvent.init], [], 0⟩).avail
                  (2 * (bfsLoop C N L sel 63 1
                    ⟨[0], [BfsEvent.init], [], 0⟩).avail.length - 1)
               then 2 * (bfsLoop C N L sel 63 1
                  ⟨[0], [BfsEvent.init], [], 0⟩).avail.length - 1
               else 2 * (bfsLoop C N L sel 63 1
                  ⟨[0], [BfsEvent.init], [], 0⟩).avail.length)).map
              (get_lnid_from_available_children_index
                (bfsLoop C N L sel 63 1 ⟨[0], [BfsEvent.init], [], 0⟩).avail))]
         else []) ++ [BfsEvent.exit] := by
  rw [bfsQuery]
  simp only
  split
  · rfl
  · rw [List.append_nil]

/-- The final particle pass performs the same rightmost existence
correction as a node-level pass at the particle level `L - 1`: for
particles the local node id is the particle index, so the test
`lnid ≥ num_particles` coincides with `is_node_used` at level `L - 1`. -/
theorem particle_m_eq (L N : Nat) (ws : List Nat) (hL : 2 ≤ L)
    (hne : ws ≠ []) :
    (if N ≤ get_lnid_from_available_children_index ws (2 * ws.length - 1)
     then 2 * ws.length - 1 else 2 * ws.length) =
      bfs_available_children L N (L - 1) ws := by
  have hc : 1 ≤ ws.length := List.length_pos.mpr hne
  rw [bfs_available_children, binary_tree_get_children_last,
    binary_tree_is_node_used, get_lnid_from_available_children_index,
    BT_LOCAL_NODE_ID_OF_LEFT_CHILD]
  simp only
  have h1 : (2 * ws.length - 1) / 2 = ws.length - 1 := by omega
  have h2 : (2 * ws.length - 1) % 2 = 1 := by omega
  have h3 : L - 1 - 1 + 1 = L - 1 := by omega
  have h4 : L - 1 - (L - 1) = 0 := by omega
  rw [h1, h2, h3, h4, pow_zero, Nat.mul_one]
  by_cases h : ws.getD (ws.length - 1) 0 * 2 + 1 < N
  · rw [if_neg (by omega), if_pos (by simpa using h)]
  · rw [if_pos (by omega), if_neg (by simpa using h)]

theorem bfsQuery_count (C N L : Nat) (sel : Nat → Nat → Bool) :
    ∀ e ∈ (bfsQuery C N L sel).events, BfsEventCount L N e := by
  intro e he
  rw [bfsQuery_events_eq] at he
  rcases List.mem_append.mp he with he1 | he1
  · rcases List.mem_append.mp he1 with he2 | he2
    · refine bfsLoop_count C N L sel 63 1 ⟨[0], [BfsEvent.init], [], 0⟩
        (by omega) ?_ e he2
      intro e' he'
      rw [List.mem_singleton.mp he']
      trivial
    · by_cases hpos : 0 <
        (bfsLoop C N L sel 63 1 ⟨[0], [BfsEvent.init], [], 0⟩).avail.length
      · rw [if_pos hpos] at he2
        rw [List.mem_singleton.mp he2]
        have hc : 1 ≤
            (bfsLoop C N L sel 63 1 ⟨[0], [BfsEvent.init], [], 0⟩).avail.length :=
          hpos
        refine ⟨fun h => by rw [h] at hc; simp at hc, ?_⟩
        rw [List.length_map, List.length_range,
          get_lnid_from_available_children_index,
          BT_LOCAL_NODE_ID_OF_LEFT_CHILD]
        have h1 : (2 * (bfsLoop C N L sel 63 1
            ⟨[0], [BfsEvent.init], [], 0⟩).avail.length - 1) / 2 =
            (bfsLoop C N L sel 63 1
              ⟨[0], [BfsEvent.init], [], 0⟩).avail.length - 1 := by omega
        have h2 : (2 * (bfsLoop C N L sel 63 1
            ⟨[0], [BfsEvent.init], [], 0⟩).avail.length - 1) % 2 = 1 := by omega
        rw [h1, h2]
        by_cases h : (bfsLoop C N L sel 63 1
            ⟨[0], [BfsEvent.init], [], 0⟩).avail.getD
              ((bfsLoop C N L sel 63 1
                ⟨[0], [BfsEvent.init], [], 0⟩).avail.length - 1) 0 * 2 + 1 < N
        · rw [if_neg (by omega), if_pos h]
        · rw [if_pos (by omega), if_neg h]
      · rw [if_neg hpos] at he2
        simp at he2
  · rw [List.mem_singleton.mp he1]
    trivial

theorem bfsQuery_ok (C N L : Nat) (sel : Nat → Nat → Bool)
    (hL2 : 2 ≤ L) (hL64 : L ≤ 64) (hN : 1 ≤ N) :
    ∀ e ∈ (bfsQuery C N L sel).events, BfsEventOk L N e := by
  have hroot : WsGood L N 0 [0] := by
    constructor
    · simp
    · intro a ha
      rw [List.mem_singleton.mp ha, binary_tree_is_node_used]
      simp only [decide_eq_true_eq]
      omega
  obtain ⟨hfin, hev⟩ := bfsLoop_ok C N L sel hL2 hL64 63 1
    ⟨[0], [BfsEvent.init], [], 0⟩ (by omega) (by omega) (by omega) hroot
    (by
      intro e' he'
      rw [List.mem_singleton.mp he']
      trivial)
  intro e he
  rw [bfsQuery_events_eq] at he
  rcases List.mem_append.mp he with he1 | he1
  · rcases List.mem_append.mp he1 with he2 | he2
    · exact hev e he2
    · by_cases hpos : 0 <
        (bfsLoop C N L sel 63 1 ⟨[0], [BfsEvent.init], [], 0⟩).avail.length
      · rw [if_pos hpos] at he2
        rw [List.mem_singleton.mp he2]
        intro x hx
        have hne : (bfsLoop C N L sel 63 1
            ⟨[0], [BfsEvent.init], [], 0⟩).avail ≠ [] := by
          intro h
          rw [h] at hpos
          simp at hpos
        have hws := hfin hne
        obtain ⟨i, hir, hieq⟩ := List.mem_map.mp hx
        rw [particle_m_eq L N _ hL2 hne] at hir
        have := offered_used L N (L - 1)
          (bfsLoop C N L sel 63 1 ⟨[0], [BfsEvent.init], [], 0⟩).avail
          (by omega) (by omega) hne hws.1
          (by
            have hvv : L - 1 - 1 = L - 2 := by omega
            rw [hvv]
            exact hws.2) i (List.mem_range.mp hir)
        rw [binary_tree_is_node_used] at this
        simp only [decide_eq_true_eq] at this
        have h4 : L - 1 - (L - 1) = 0 := by omega
        rw [h4, pow_zero, Nat.mul_one] at this
        rw [← hieq]
        exact this
      · rw [if_neg hpos] at he2
        simp at he2
  · rw [List.mem_singleton.mp he1]
    trivial

/-- Claim C1: on the failing input `Max_selected_nodes = C = 1`, tree with
`N = 4` particles (`effective_num_levels = 3`), and a handler selecting
every offered candidate, the compaction loop performs the store
`temp_new_node_ids[num_available_nodes]` before clamping the counter, so
the second selected candidate is written at index `1 = C`, one past the end
of the capacity-`C` array — the recorded write indices are `[0, 1]` and not
all below `C`.  The live working-set count itself stays clamped at `C` and
the excess candidate is silently dropped. -/
theorem c1_bfs_compaction_writes_past_capacity :
    (bfsQuery 1 4 3 (fun _ _ => true)).tempWrites = [0, 1] ∧
      ¬ (∀ j ∈ (bfsQuery 1 4 3 (fun _ _ => true)).tempWrites, j < 1) ∧
      (bfsQuery 1 4 3 (fun _ _ => true)).avail.length ≤ 1 := by
  decide

/-- Claim C4: in the `N = 6` scenario (`effective_num_levels = 4`,
`effective_num_particles = 8`), under any handler decisions, no node of the
deepest node level (level 2) whose leftmost descendant particle index is
`≥ 6` is ever offered to a selection predicate (equivalently, loaded /
dereferenced) by the BFS kernel, and none is ever queried by the DFS
kernel. -/
theorem c4_padding_nodes_never_offered :
    (∀ (C : Nat) (sel : Nat → Nat → Bool) (ws offered : List Nat),
      BfsEvent.nodeSel 2 ws offered ∈ (bfsQuery C 6 4 sel).events →
      ∀ x ∈ offered, 2 * x < 6) ∧
      (∀ (strat : depth_first_iteration_strategy)
        (nsel : binary_tree_key_t → Bool) (psel : Nat → Bool)
        (fuel i : Nat) (b : Bool),
        DfsEvent.nodeQuery ⟨2, i⟩ b ∈
          (dfsExec 4 6 strat nsel psel fuel dfsInit).trace → 2 * i < 6) := by
  constructor
  · intro C sel ws offered hmem x hx
    have hok := bfsQuery_ok C 6 4 sel (by omega) (by omega) (by omega)
      (BfsEvent.nodeSel 2 ws offered) hmem
    have h2 : binary_tree_is_node_used ⟨2, x⟩ 4 6 = true := hok x hx
    rw [binary_tree_is_node_used] at h2
    simp only [decide_eq_true_eq] at h2
    omega
  · intro strat nsel psel fuel i b hmem
    obtain ⟨hnode, _⟩ := dfs_exec_trace_ok 4 6 strat nsel psel (by decide)
      fuel dfsInit (dfs_init_inv 4)
      (by intro k b h; simp [dfsInit] at h)
      (by intro k b h; simp [dfsInit] at h)
    have := hnode ⟨2, i⟩ b hmem
    rw [dfsLeftmost] at this
    simp only at this
    omega

/-- Witness for C4: in a concrete run with an always-selecting handler,
BFS offers candidate local id 2 at level 2 and DFS queries node (2,0);
both satisfy the bound. -/
theorem c4_witness : 2 * 2 < 6 ∧ 2 * 0 < 6 :=
  ⟨c4_padding_nodes_never_offered.1 2 (fun _ _ => true) [0, 1] [0, 1, 2]
      (by decide) 2 (by decide),
   c4_padding_nodes_never_offered.2 .HIERARCHICAL_ITERATION_STRICT
      (fun _ => true) (fun _ => true) 3 0 true (by decide)⟩

/-- Claim C5: at `N = 1` (`effective_num_levels = 1`) the DFS kernel indeed
processes the single particle at index 0 directly and terminates — but the
BFS kernel does not behave as claimed: its break test compares the level
counter (starting at 1) with `effective_num_levels - 1 = 0`, which never
matches, so the node-level body runs and invokes the node selector once
(with one candidate at the non-existent level 1), and with nothing selected
the working set empties and the single particle is never offered to the
particle processor. -/
theorem c5_bfs_single_particle_divergence :
    (bfsQuery 1 1 1 (fun _ _ => false)).events =
      [BfsEvent.init, BfsEvent.nodeSel 1 [0] [0], BfsEvent.exit] ∧
      (∀ (strat : depth_first_iteration_strategy)
        (nsel : binary_tree_key_t → Bool) (psel : Nat → Bool),
        (dfsExec 1 1 strat nsel psel 2 dfsInit).num_covered_particles = 1 ∧
          (dfsExec 1 1 strat nsel psel 2 dfsInit).trace =
            [DfsEvent.particleQuery 0 (psel 0)]) := by
  constructor
  · decide
  · intro strat nsel psel
    cases h : psel 0 <;>
      constructor <;>
        simp [dfsExec, dfsStep, dfsInit, h, dfsBacktrack,
          binary_tree_is_right_child]

/-- Claim C6: every candidate count offered by the BFS kernel — at a node
level or in the final particle pass — equals twice the working-set count,
reduced by one exactly when the rightmost candidate's leftmost particle
index fails the existence comparison against the true particle count `N`
(the padded count plays no part in the formula). -/
theorem c6_candidate_count_formula (C N L : Nat) (sel : Nat → Nat → Bool) :
    (∀ lv ws offered,
      BfsEvent.nodeSel lv ws offered ∈ (bfsQuery C N L sel).events →
      ws ≠ [] ∧ offered.length =
        (if (ws.getD (ws.length - 1) 0 * 2 + 1) * 2 ^ (L - 1 - lv) < N
         then 2 * ws.length else 2 * ws.length - 1)) ∧
      (∀ ws offered,
        BfsEvent.partSel ws offered ∈ (bfsQuery C N L sel).events →
        ws ≠ [] ∧ offered.length =
          (if ws.getD (ws.length - 1) 0 * 2 + 1 < N
           then 2 * ws.length else 2 * ws.length - 1)) := by
  constructor
  · intro lv ws offered hmem
    have h := bfsQuery_count C N L sel (BfsEvent.nodeSel lv ws offered) hmem
    exact ⟨h.2.1, h.2.2⟩
  · intro ws offered hmem
    exact bfsQuery_count C N L sel (BfsEvent.partSel ws offered) hmem

/-- Witness for C6: the level-2 invocation of the always-selecting run on
the `N = 6` tree offers 3 candidates: `2*2` minus the rightmost correction,
since candidate 3 covers particle slots starting at 6. -/
theorem c6_witness :
    ([0, 1, 2] : List Nat).length =
      (if ((([0, 1] : List Nat).getD (([0, 1] : List Nat).length - 1) 0) * 2 + 1) *
          2 ^ (4 - 1 - 2) < 6
       then 2 * ([0, 1] : List Nat).length
       else 2 * ([0, 1] : List Nat).length - 1) :=
  ((c6_candidate_count_formula 2 6 4 (fun _ _ => true)).1 2 [0, 1] [0, 1, 2]
    (by decide)).2

/-- Claim C7: in every BFS query, for any capacity, tree shape and handler,
the query-init hook event is recorded exactly once and first, the
query-exit hook event exactly once and last, and if the working set is
empty at the end of the level loop the particle processor is never
invoked (while the exit hook still runs). -/
theorem c7_init_exit_hooks (C N L : Nat) (sel : Nat → Nat → Bool) :
    (bfsQuery C N L sel).events.head? = some BfsEvent.init ∧
      (bfsQuery C N L sel).events.getLast? = some BfsEvent.exit ∧
      (bfsQuery C N L sel).events.count BfsEvent.init = 1 ∧
      (bfsQuery C N L sel).events.count BfsEvent.exit = 1 ∧
      ((bfsQuery C N L sel).avail = [] →
        ∀ ws offered, BfsEvent.partSel ws offered ∉ (bfsQuery C N L sel).events) := by
  obtain ⟨l, hl, hall⟩ :=
    bfsLoop_events_nodeSel C N L sel 63 1 ⟨[0], [BfsEvent.init], [], 0⟩
  have hinitnot : ∀ e ∈ l, e ≠ BfsEvent.init := by
    intro e he hcon
    obtain ⟨a, b, c, hn⟩ := hall e he
    rw [hcon] at hn
    cases hn
  have hexitnot : ∀ e ∈ l, e ≠ BfsEvent.exit := by
    intro e he hcon
    obtain ⟨a, b, c, hn⟩ := hall e he
    rw [hcon] at hn
    cases hn
  have hev := bfsQuery_events_eq C N L sel
  rw [hl] at hev
  by_cases hpos : 0 <
      (bfsLoop C N L sel 63 1 ⟨[0], [BfsEvent.init], [], 0⟩).avail.length
  · rw [if_pos hpos] at hev
    refine ⟨?_, ?_, ?_, ?_, ?_⟩
    · rw [hev]
      rfl
    · rw [hev]
      exact List.getLast?_concat _
    · rw [hev]
      rw [List.count_append, List.count_append, List.count_append]
      rw [List.count_eq_zero.mpr (fun h => hinitnot _ h rfl)]
      simp
    · rw [hev]
      rw [List.count_append, List.count_append, List.count_append]
      rw [List.count_eq_zero.mpr (fun h => hexitnot _ h rfl)]
      simp
    · intro hav
      exfalso
      rw [bfsQuery_avail_eq] at hav
      rw [hav] at hpos
      simp at hpos
  · rw [if_neg hpos] at hev
    refine ⟨?_, ?_, ?_, ?_, ?_⟩
    · rw [hev]
      rfl
    · rw [hev]
      exact List.getLast?_concat _
    · rw [hev]
      rw [List.count_append, List.count_append, List.count_append]
      rw [List.count_eq_zero.mpr (fun h => hinitnot _ h rfl)]
      simp
    · rw [hev]
      rw [List.count_append, List.count_append, List.count_append]
      rw [List.count_eq_zero.mpr (fun h => hexitnot _ h rfl)]
      simp
    · intro _ ws offered hmem
      rw [hev] at hmem
      rcases List.mem_append.mp hmem with h1 | h1
      · rcases List.mem_append.mp h1 with h2 | h2
        · rcases List.mem_append.mp h2 with h3 | h3
          · cases List.mem_singleton.mp h3
          · obtain ⟨a, b, c, hn⟩ := hall _ h3
            cases hn
        · simp at h2
      · cases List.mem_singleton.mp h1

/-- Witness for C7 on a concrete query. -/
theorem c7_witness :
    (bfsQuery 1 1 3 (fun _ _ => false)).events.head? = some BfsEvent.init :=
  (c7_init_exit_hooks 1 1 3 (fun _ _ => false)).1

/-- Claim C10: the BFS node-level loop iterates its level counter from 1
with the hard bound `level < 64`, so no query ever executes more than 63
node-level iterations, whatever the capacity, tree shape and handler — and
the bound is attained when the stop conditions never trigger (always-
selecting handler on a tree whose particle level is out of reach). -/
theorem c10_bfs_level_loop_bound :
    (∀ (C N L : Nat) (sel : Nat → Nat → Bool),
      (bfsQuery C N L sel).levelIters ≤ 63) ∧
      (bfsQuery 1 (2 ^ 64) 65 (fun _ _ => true)).levelIters = 63 := by
  constructor
  · intro C N L sel
    rw [bfsQuery_iters_eq]
    have := bfsLoop_iters C N L sel 63 1 ⟨[0], [BfsEvent.init], [], 0⟩
    simpa using this
  · decide
